import Mathlib

/-!
Verification development for the eole autoregressive decoding core.

The embedding covers `eole/predict/decode_strategy.py` (class DecodeStrategy)
and the cache handling of `eole/decoders/transformer_decoder.py`
(class TransformerDecoder).  Tensors of token ids become `List (List Nat)`,
score tensors become `List (List Int)` (score values are exact integers; the
float sentinels -65504, -10e20 and the penalty 10000 are exactly representable
floats, so integer arithmetic is a faithful carrier for the claims here), and
Python dicts from ngram tuples to sets of token ids become association lists.

Renamings forced by the surrounding tooling (the source names are kept
everywhere else): the attribute `target_prefix` is called `forcedPref`, the
method `target_prefixing` is `applyForcedPref`, and the method
`maybe_update_target_prefix` is `maybeUpdateForcedPref`.
-/

/-- One path's forbidden-ngram table, Python `dict` from an (n-1)-gram tuple to
the set of forbidden next tokens (decode_strategy.py, attribute
`forbidden_tokens`).  Modelled as an association list with unique keys; the set
of forbidden tokens is a duplicate-free list. -/
abbrev NgramTable : Type := List (List Nat × List Nat)

/-- Python `d.get(key, None)` on an `NgramTable`. -/
def tableGet (t : NgramTable) (key : List Nat) : Option (List Nat) :=
  match t with
  | [] => none
  | e :: rest => if e.1 = key then some e.2 else tableGet rest key

/-- Python `d.setdefault(key, set())` followed by `d[key].add(tok)`. -/
def tableAdd (t : NgramTable) (key : List Nat) (tok : Nat) : NgramTable :=
  match t with
  | [] => [(key, [tok])]
  | e :: rest =>
    if e.1 = key then (e.1, if tok ∈ e.2 then e.2 else e.2 ++ [tok]) :: rest
    else e :: tableAdd rest key tok

/-- The exclusion invariant of a forbidden-ngram table: a token `tok` is only
recorded as forbidden after a key `key` when no member of the recorded ngram
`key ++ [tok]` belongs to the exclusion set. -/
def tableOK (excl : List Nat) (t : NgramTable) : Prop :=
  ∀ e ∈ t, ∀ tok ∈ e.2, ∀ x ∈ e.1 ++ [tok], x ∉ excl

instance (excl : List Nat) (t : NgramTable) : Decidable (tableOK excl t) := by
  unfold tableOK; infer_instance

/-- Python tensor row slice `row[-n:]`.  For `n = 0` this is the whole row,
because `-0` is `0` and `row[0:]` is `row`. -/
def negSlice (l : List Nat) (n : Nat) : List Nat :=
  if n = 0 then l else l.drop (l.length - n)

/-- Python `row[idxs] = v` for a list of column indices: set every listed index
of the row to `v`. -/
def setAll (row : List Int) (idxs : List Nat) (v : Int) : List Int :=
  idxs.foldl (fun r j => r.set j v) row

/-- `List.map` with the position passed to the function, starting at `n`. -/
def mapIdxFrom (f : Nat → α → β) (n : Nat) : List α → List β
  | [] => []
  | x :: xs => f n x :: mapIdxFrom f (n + 1) xs

/-- `List.map` with the position passed to the function. -/
def mapIdxL (f : Nat → α → β) (l : List α) : List β := mapIdxFrom f 0 l

/-- State of a `DecodeStrategy` object (decode_strategy.py).  Attributes that
`__init__` does not set (`alive_seq`, `is_finished_list`, `select_indices` and
the forced-prefix remainder `target_prefix`, here `forcedPref`) are carried in
the structure and given inert defaults by the constructor model. -/
structure DecodeStrategy where
  pad : Nat
  bos : Nat
  eos : List Nat
  unk : Nat
  start : Nat
  batch_size : Nat
  parallel_paths : Nat
  min_length : Int
  max_length : Int
  ban_unk_token : Bool
  block_ngram_repeat : Int
  forbidden_tokens : List NgramTable
  exclusion_tokens : List Nat
  return_attention : Bool
  alive_seq : List (List Nat)
  is_finished_list : List (List Bool)
  forcedPref : Option (List (List Nat))
  select_indices : List Nat
  done : Bool
deriving DecidableEq, Repr

/-- `DecodeStrategy.__init__`: stores the configuration and allocates the
per-path empty forbidden tables.  An integer `eos` is wrapped into a
one-element list (the `isinstance(eos, int)` branch).  No validation of any
argument is performed. -/
def mkDecodeStrategy (pad bos : Nat) (eosArg : Nat ⊕ List Nat) (unk start : Nat)
    (batch_size parallel_paths : Nat) (min_length : Int) (block_ngram_repeat : Int)
    (exclusion_tokens : List Nat) (return_attention : Bool) (max_length : Int)
    (ban_unk_token : Bool) : DecodeStrategy :=
  { pad := pad
    bos := bos
    eos := match eosArg with | Sum.inl e => [e] | Sum.inr es => es
    unk := unk
    start := start
    batch_size := batch_size
    parallel_paths := parallel_paths
    min_length := min_length
    max_length := max_length
    ban_unk_token := ban_unk_token
    block_ngram_repeat := block_ngram_repeat
    forbidden_tokens := List.replicate (batch_size * parallel_paths) []
    exclusion_tokens := exclusion_tokens
    return_attention := return_attention
    alive_seq := []
    is_finished_list := []
    forcedPref := none
    select_indices := []
    done := false }

/-- `DecodeStrategy.__len__`: `alive_seq.shape[1]`, the width of the alive
sequence tensor, read off the first row. -/
def DecodeStrategy.len (s : DecodeStrategy) : Nat := (s.alive_seq.headD []).length

/-- `DecodeStrategy.ensure_min_length`: while the alive length is at most
`min_length`, write -65504 into every `eos` column of every row. -/
def ensureMinLength (s : DecodeStrategy) (log_probs : List (List Int)) :
    List (List Int) :=
  if (s.len : Int) ≤ s.min_length then
    log_probs.map (fun row => setAll row s.eos (-65504))
  else log_probs

/-- `DecodeStrategy.ensure_max_length`: when the alive length reaches
`max_length + 1` (the extra one accounts for BOS), mark every path of every
batch item finished. -/
def ensureMaxLength (s : DecodeStrategy) : DecodeStrategy :=
  if (s.len : Int) = s.max_length + 1 then
    { s with is_finished_list :=
        s.is_finished_list.map (fun _ => List.replicate s.parallel_paths true) }
  else s

/-- The sentinel written by `block_ngram_repeats`: the float `-10e20`. -/
def ngramSentinel : Int := -1000000000000000000000

/-- `DecodeStrategy.block_ngram_repeats`: for each path, look up the
`row[-(k-1):]` slice of its alive sequence (note the Python quirk: for
`k = 1` this slice is the whole row) in that path's forbidden table and set
every forbidden token of that row to the sentinel. -/
def blockNgramRepeats (s : DecodeStrategy) (log_probs : List (List Int)) :
    List (List Int) :=
  if s.block_ngram_repeat ≤ 0 then log_probs
  else if (s.len : Int) < s.block_ngram_repeat then log_probs
  else
    let n : Nat := (s.block_ngram_repeat - 1).toNat
    mapIdxL (fun i row =>
      match tableGet (s.forbidden_tokens.getD i [])
          (negSlice (s.alive_seq.getD i []) n) with
      | some forb => setAll row forb ngramSentinel
      | none => row) log_probs

/-- The per-path body of `maybe_update_forbidden_tokens`: deep-copy the
pre-selection table (value semantics here), then record the newly formed
ngram unless it intersects the exclusion set. -/
def updateOneTable (excl : List Nat) (k : Nat) (t : NgramTable) (seq : List Nat) :
    NgramTable :=
  let ngram := negSlice seq k
  if ngram.any excl.contains then t
  else tableAdd t ngram.dropLast (ngram.getLastD 0)

/-- `DecodeStrategy.maybe_update_forbidden_tokens`: reorder the tables by
`select_indices` (pre-reorder path identity) and extend each with the new
ngram of its post-reorder sequence. -/
def maybeUpdateForbiddenTokens (s : DecodeStrategy) : DecodeStrategy :=
  if s.block_ngram_repeat ≤ 0 then s
  else if (s.len : Int) < s.block_ngram_repeat then s
  else
    let newTables := (s.select_indices.zip s.alive_seq).map
      (fun pi_seq => updateOneTable s.exclusion_tokens s.block_ngram_repeat.toNat
        (s.forbidden_tokens.getD pi_seq.1 []) pi_seq.2)
    { s with forbidden_tokens := newTables }

/-- `target_prefix.size(1)`: the width of the stored forced-prefix tensor,
read off the first row. -/
def prefWidth (tp : List (List Nat)) : Nat := (tp.headD []).length

/-- A prescribed token exempt from forcing: `pick in [*self.eos, self.pad]`. -/
def exemptTok (s : DecodeStrategy) (p : Nat) : Bool := s.eos.contains p || p == s.pad

/-- `DecodeStrategy.target_prefixing` (renamed, see header): while the step
index `len(self)` is within the stored prefix width, subtract
`10000 * dropdowns` from the scores, where `dropdowns[i][j]` is 1 unless `j`
is path `i`'s prescribed token, and the whole row `i` is zeroed (masked) when
path `i`'s prescribed token is an eos or pad id.  Rows of `log_probs` are in
bijection with rows of the stored prefix (tensor shapes agree in every
reachable state). -/
def applyForcedPref (s : DecodeStrategy) (log_probs : List (List Int)) :
    List (List Int) :=
  match s.forcedPref with
  | none => log_probs
  | some tp =>
    if s.len ≤ prefWidth tp then
      let pick_idx : List Nat := tp.map (fun r => r.getD (s.len - 1) 0)
      if pick_idx.any (fun p => !(exemptTok s p)) then
        mapIdxL (fun i row =>
          let pick := pick_idx.getD i 0
          if exemptTok s pick then row
          else mapIdxL (fun j x => if j = pick then x else x - 10000) row) log_probs
      else log_probs
    else log_probs

/-- `DecodeStrategy.maybe_update_target_prefix` (renamed, see header): once the
step index surpasses the stored prefix width the attribute is left unmodified;
otherwise it is reindexed by the selection. -/
def maybeUpdateForcedPref (s : DecodeStrategy) (select_index : List Nat) :
    DecodeStrategy :=
  match s.forcedPref with
  | none => s
  | some tp =>
    if s.len > prefWidth tp then s
    else { s with forcedPref := some (select_index.map (fun i => tp.getD i [])) }

/-- Python `max` of a nonempty list of counts (`max([])` would raise). -/
def natListMax : List Nat → Nat
  | [] => 0
  | h :: t => t.foldl max h

/-- Python `min` of a nonempty list of counts (`min([])` would raise). -/
def natListMin : List Nat → Nat
  | [] => 0
  | h :: t => t.foldl min h

/-- `DecodeStrategy.initState`: allocate the alive sequence (one start token
per path) and the finished flags; when a forced prefix is supplied, assert
that it is tiled to the full path count, strip its leading start token, and
widen the length bounds by the extreme non-pad counts of the stripped prefix
minus one.  The second component models the AssertionError raised on a row
count mismatch: in that case the mutations textually after the `assert`
(the length adjustments and the storing of the stripped remainder) have not
happened in the returned state. -/
def DecodeStrategy.initState (s : DecodeStrategy) (tp : Option (List (List Nat))) :
    DecodeStrategy × Option String :=
  let s1 := { s with
    alive_seq := List.replicate (s.batch_size * s.parallel_paths) [s.start]
    is_finished_list :=
      List.replicate s.batch_size (List.replicate s.parallel_paths false) }
  match tp with
  | none => ({ s1 with forcedPref := none }, none)
  | some p =>
    if p.length = s.batch_size * s.parallel_paths then
      let p2 := p.map (fun r => r.drop 1)
      let counts := p2.map (fun r => (r.filter (fun x => x != s.pad)).length)
      ({ s1 with
          max_length := s.max_length + (natListMax counts : Int) - 1
          min_length := s.min_length + (natListMin counts : Int) - 1
          forcedPref := some p2 }, none)
    else (s1, some "forced target_prefix should have extend to same number of path")

/-! ### Helper lemmas on the list primitives -/

theorem getElem?_mapIdxFrom (f : Nat → α → β) (n i : Nat) (l : List α) :
    (mapIdxFrom f n l)[i]? = l[i]?.map (f (n + i)) := by
  induction l generalizing n i with
  | nil => simp [mapIdxFrom]
  | cons x xs ih =>
    cases i with
    | zero => simp [mapIdxFrom]
    | succ j =>
      simp only [mapIdxFrom, List.getElem?_cons_succ, ih (n + 1) j]
      have : n + 1 + j = n + (j + 1) := by omega
      rw [this]

theorem getElem?_mapIdxL (f : Nat → α → β) (i : Nat) (l : List α) :
    (mapIdxL f l)[i]? = l[i]?.map (f i) := by
  simpa using getElem?_mapIdxFrom f 0 i l

theorem length_mapIdxFrom (f : Nat → α → β) (n : Nat) (l : List α) :
    (mapIdxFrom f n l).length = l.length := by
  induction l generalizing n with
  | nil => rfl
  | cons x xs ih => simp [mapIdxFrom, ih]

theorem length_mapIdxL (f : Nat → α → β) (l : List α) :
    (mapIdxL f l).length = l.length := length_mapIdxFrom f 0 l

theorem length_setAll (row : List Int) (idxs : List Nat) (v : Int) :
    (setAll row idxs v).length = row.length := by
  induction idxs generalizing row with
  | nil => rfl
  | cons i rest ih =>
    have hstep : setAll row (i :: rest) v = setAll (row.set i v) rest v := by
      simp [setAll]
    rw [hstep, ih (row.set i v), List.length_set]

theorem getElem?_setAll (row : List Int) (idxs : List Nat) (v : Int) (j : Nat) :
    (setAll row idxs v)[j]? =
      if j ∈ idxs ∧ j < row.length then some v else row[j]? := by
  induction idxs generalizing row with
  | nil => simp [setAll]
  | cons i rest ih =>
    have hstep : setAll row (i :: rest) v = setAll (row.set i v) rest v := by
      simp [setAll]
    rw [hstep, ih (row.set i v)]
    by_cases hmem : j ∈ rest
    · by_cases hlt : j < row.length
      · simp [hmem, hlt]
      · have h1 : (row.set i v)[j]? = none :=
          List.getElem?_eq_none (by simpa using Nat.le_of_not_lt hlt)
        have h2 : row[j]? = none := List.getElem?_eq_none (Nat.le_of_not_lt hlt)
        simp [hmem, hlt, h1, h2]
    · by_cases hij : i = j
      · subst hij
        by_cases hlt : i < row.length
        · simp [hmem, hlt, List.getElem?_set]
        · have h2 : row[i]? = none := List.getElem?_eq_none (Nat.le_of_not_lt hlt)
          simp [hmem, hlt, List.getElem?_set, h2]
      · have hji : ¬ j = i := fun h => hij h.symm
        simp [hmem, List.getElem?_set_ne hij, hji]

/-! ### C1: forced termination at max length -/

/-- All finished flags raised: the state produced by a triggered
`ensure_max_length`. -/
def allFinished (s : DecodeStrategy) : DecodeStrategy :=
  { s with is_finished_list :=
      s.is_finished_list.map (fun _ => List.replicate s.parallel_paths true) }

theorem ensureMaxLength_triggered (t : DecodeStrategy)
    (ht : (t.len : Int) = t.max_length + 1) :
    ensureMaxLength t = allFinished t := by
  unfold ensureMaxLength allFinished
  rw [if_pos ht]

/-- C1: whenever the alive sequence length equals `max_length + 1` (one more
than the configured maximum, accounting for the start token),
`ensure_max_length` marks every path of every batch item finished; the state
`s` is arbitrary, so this holds regardless of the selected token and with
every other constraint disabled, and calling `ensure_max_length` again in the
resulting state leaves the finished flags (and the whole state) unchanged. -/
theorem ensureMaxLength_forces_finish (s : DecodeStrategy)
    (h : (s.len : Int) = s.max_length + 1) :
    (ensureMaxLength s).is_finished_list
        = s.is_finished_list.map (fun _ => List.replicate s.parallel_paths true)
    ∧ (∀ row ∈ (ensureMaxLength s).is_finished_list, ∀ b ∈ row, b = true)
    ∧ ensureMaxLength (ensureMaxLength s) = ensureMaxLength s := by
  have hs := ensureMaxLength_triggered s h
  refine ⟨by rw [hs]; rfl, ?_, ?_⟩
  · intro row hrow b hb
    rw [hs] at hrow
    simp only [allFinished, List.mem_map] at hrow
    obtain ⟨r0, _, hr⟩ := hrow
    rw [← hr] at hb
    exact List.eq_of_mem_replicate hb
  · have ht2 : (((allFinished s).len : Int) = (allFinished s).max_length + 1) := h
    rw [hs, ensureMaxLength_triggered _ ht2]
    unfold allFinished
    simp [List.map_map, Function.comp]

/-- Concrete state triggering the max-length rule: two paths, alive width 2,
max_length 1. -/
def exMaxS : DecodeStrategy :=
  { mkDecodeStrategy 0 1 (Sum.inl 2) 3 1 2 1 0 0 [] false 1 false with
      alive_seq := [[1, 4], [1, 5]]
      is_finished_list := [[false], [false]] }

theorem ensureMaxLength_forces_finish_witness :
    ((exMaxS.len : Int) = exMaxS.max_length + 1)
    ∧ ((ensureMaxLength exMaxS).is_finished_list
        = exMaxS.is_finished_list.map (fun _ => List.replicate exMaxS.parallel_paths true)
      ∧ (∀ row ∈ (ensureMaxLength exMaxS).is_finished_list, ∀ b ∈ row, b = true)
      ∧ ensureMaxLength (ensureMaxLength exMaxS) = ensureMaxLength exMaxS) :=
  ⟨by decide, ensureMaxLength_forces_finish exMaxS (by decide)⟩

/-! ### C8: min-length forcing of terminal scores -/

/-- C8: while the alive length is at most `min_length`, `ensure_min_length`
writes the sentinel -65504 into every column listed in the eos set, for every
path row, and leaves every other column unchanged; when the length exceeds
`min_length` it changes nothing; and `__init__` treats a single integer eos as
the one-element set. -/
theorem ensureMinLength_spec (s : DecodeStrategy) (lp : List (List Int))
    (i j : Nat) (hi : i < lp.length) :
    ((s.len : Int) ≤ s.min_length →
      ((ensureMinLength s lp).getD i [])[j]? =
        (if j ∈ s.eos ∧ j < (lp.getD i []).length then some (-65504 : Int)
         else (lp.getD i [])[j]?))
    ∧ (s.min_length < (s.len : Int) → ensureMinLength s lp = lp)
    ∧ (∀ (pad bos e unk start bsz pp : Nat) (minl bnr maxl : Int)
        (excl : List Nat) (ra banu : Bool),
        (mkDecodeStrategy pad bos (Sum.inl e) unk start bsz pp minl bnr excl ra
          maxl banu).eos = [e]) := by
  refine ⟨?_, ?_, ?_⟩
  · intro hle
    unfold ensureMinLength
    rw [if_pos hle]
    have hrow : (lp.map (fun row => setAll row s.eos (-65504))).getD i []
        = setAll (lp.getD i []) s.eos (-65504) := by
      rw [List.getD_eq_getElem?_getD, List.getD_eq_getElem?_getD,
        List.getElem?_map, List.getElem?_eq_getElem hi]
      rfl
    rw [hrow, getElem?_setAll]
  · intro hgt
    unfold ensureMinLength
    rw [if_neg (by omega)]
  · intro pad bos e unk start bsz pp minl bnr maxl excl ra banu
    rfl

/-- Concrete state for the min-length rule: eos set is the pair 2, 3; alive
width 1, min_length 2. -/
def exMinS : DecodeStrategy :=
  { mkDecodeStrategy 0 1 (Sum.inr [2, 3]) 4 1 1 1 2 0 [] false 9 false with
      alive_seq := [[1]]
      is_finished_list := [[false]] }

theorem ensureMinLength_spec_witness :
    (0 < [[(5 : Int), 6, 7, 8, 9]].length)
    ∧ (((exMinS.len : Int) ≤ exMinS.min_length →
        ((ensureMinLength exMinS [[(5 : Int), 6, 7, 8, 9]]).getD 0 [])[2]? =
          (if 2 ∈ exMinS.eos ∧ 2 < ([[(5 : Int), 6, 7, 8, 9]].getD 0 []).length
           then some (-65504 : Int)
           else ([[(5 : Int), 6, 7, 8, 9]].getD 0 [])[2]?))
      ∧ (exMinS.min_length < (exMinS.len : Int) →
          ensureMinLength exMinS [[(5 : Int), 6, 7, 8, 9]] = [[(5 : Int), 6, 7, 8, 9]])
      ∧ (∀ (pad bos e unk start bsz pp : Nat) (minl bnr maxl : Int)
          (excl : List Nat) (ra banu : Bool),
          (mkDecodeStrategy pad bos (Sum.inl e) unk start bsz pp minl bnr excl ra
            maxl banu).eos = [e])) :=
  ⟨by decide, ensureMinLength_spec exMinS [[(5 : Int), 6, 7, 8, 9]] 0 2 (by decide)⟩

/-! ### C5: no validation at construction -/

/-- C5 counterexample: constructing a DecodeStrategy with max_length = 0 and
min_length = 5 (non-positive maximum and minimum exceeding maximum) completes
normally: the values are stored as given and the strategy is a live object
with done = false, so no fatal configuration error occurs at construction. -/
theorem mkDecodeStrategy_rejects_nothing_cx :
    (mkDecodeStrategy 0 1 (Sum.inl 2) 3 1 1 1 5 0 [] false 0 false).max_length = 0
    ∧ (mkDecodeStrategy 0 1 (Sum.inl 2) 3 1 1 1 5 0 [] false 0 false).min_length = 5
    ∧ (mkDecodeStrategy 0 1 (Sum.inl 2) 3 1 1 1 5 0 [] false 0 false).done = false :=
  ⟨rfl, rfl, rfl⟩

/-- C5 amended: `DecodeStrategy.__init__` performs no validation; every
max_length and min_length, including a negative or zero max_length and
min_length greater than max_length, is accepted and stored unchanged. -/
theorem mkDecodeStrategy_accepts_any_lengths (pad bos unk start bsz pp : Nat)
    (eosArg : Nat ⊕ List Nat) (minl bnr maxl : Int) (excl : List Nat)
    (ra banu : Bool) :
    (mkDecodeStrategy pad bos eosArg unk start bsz pp minl bnr excl ra maxl
      banu).max_length = maxl
    ∧ (mkDecodeStrategy pad bos eosArg unk start bsz pp minl bnr excl ra maxl
        banu).min_length = minl
    ∧ (mkDecodeStrategy pad bos eosArg unk start bsz pp minl bnr excl ra maxl
        banu).done = false :=
  ⟨rfl, rfl, rfl⟩

/-! ### Extrema of count lists (for the initialize length adjustments) -/

theorem le_foldl_max (t : List Nat) (a : Nat) : a ≤ t.foldl max a := by
  induction t generalizing a with
  | nil => exact Nat.le_refl a
  | cons b t ih => exact Nat.le_trans (Nat.le_max_left a b) (ih (max a b))

theorem mem_le_foldl_max (t : List Nat) (a x : Nat) (hx : x ∈ t) :
    x ≤ t.foldl max a := by
  induction t generalizing a with
  | nil => cases hx
  | cons b t ih =>
    rcases List.mem_cons.mp hx with h | h
    · subst h
      exact Nat.le_trans (Nat.le_max_right a x) (le_foldl_max t (max a x))
    · exact ih (max a b) h

theorem foldl_max_mem (t : List Nat) (a : Nat) :
    t.foldl max a = a ∨ t.foldl max a ∈ t := by
  induction t generalizing a with
  | nil => exact Or.inl rfl
  | cons b t ih =>
    rcases ih (max a b) with h | h
    · rcases max_choice a b with hab | hab
      · exact Or.inl (by rw [List.foldl_cons, h, hab])
      · exact Or.inr (by rw [List.foldl_cons, h, hab]; exact List.mem_cons_self b t)
    · exact Or.inr (List.mem_cons_of_mem b h)

theorem natListMax_mem (l : List Nat) (h : l ≠ []) : natListMax l ∈ l := by
  match l with
  | [] => exact absurd rfl h
  | a :: t =>
    have he : natListMax (a :: t) = t.foldl max a := rfl
    rw [he]
    rcases foldl_max_mem t a with h1 | h1
    · rw [h1]; exact List.mem_cons_self a t
    · exact List.mem_cons_of_mem a h1

theorem le_natListMax (l : List Nat) (x : Nat) (hx : x ∈ l) : x ≤ natListMax l := by
  match l with
  | [] => cases hx
  | a :: t =>
    rcases List.mem_cons.mp hx with h | h
    · exact h ▸ le_foldl_max t x
    · exact mem_le_foldl_max t a x h

theorem foldl_min_le (t : List Nat) (a : Nat) : t.foldl min a ≤ a := by
  induction t generalizing a with
  | nil => exact Nat.le_refl a
  | cons b t ih => exact Nat.le_trans (ih (min a b)) (Nat.min_le_left a b)

theorem foldl_min_le_mem (t : List Nat) (a x : Nat) (hx : x ∈ t) :
    t.foldl min a ≤ x := by
  induction t generalizing a with
  | nil => cases hx
  | cons b t ih =>
    rcases List.mem_cons.mp hx with h | h
    · subst h
      exact Nat.le_trans (foldl_min_le t (min a x)) (Nat.min_le_right a x)
    · exact ih (min a b) h

theorem foldl_min_mem (t : List Nat) (a : Nat) :
    t.foldl min a = a ∨ t.foldl min a ∈ t := by
  induction t generalizing a with
  | nil => exact Or.inl rfl
  | cons b t ih =>
    rcases ih (min a b) with h | h
    · rcases min_choice a b with hab | hab
      · exact Or.inl (by rw [List.foldl_cons, h, hab])
      · exact Or.inr (by rw [List.foldl_cons, h, hab]; exact List.mem_cons_self b t)
    · exact Or.inr (List.mem_cons_of_mem b h)

theorem natListMin_mem (l : List Nat) (h : l ≠ []) : natListMin l ∈ l := by
  match l with
  | [] => exact absurd rfl h
  | a :: t =>
    have he : natListMin (a :: t) = t.foldl min a := rfl
    rw [he]
    rcases foldl_min_mem t a with h1 | h1
    · rw [h1]; exact List.mem_cons_self a t
    · exact List.mem_cons_of_mem a h1

theorem natListMin_le (l : List Nat) (x : Nat) (hx : x ∈ l) : natListMin l ≤ x := by
  match l with
  | [] => cases hx
  | a :: t =>
    rcases List.mem_cons.mp hx with h | h
    · exact h ▸ foldl_min_le t x
    · exact foldl_min_le_mem t a x h

/-! ### C9 and C10: initialize -/

/-- C9: `initialize` sets the alive sequence to a (batch_size x parallel_paths,
1) tensor where every path is exactly the single start token, with every
finished flag false; when a forced target prefix is supplied (already tiled to
the full path count), it is stored with its leading start token stripped,
max_length grows by the maximum per-path count of non-pad tokens of the
stripped prefix minus one, and min_length by the minimum such count minus one;
no assertion error is raised. -/
theorem initialize_spec (s : DecodeStrategy) (p : List (List Nat))
    (hb : p.length = s.batch_size * s.parallel_paths)
    (hpos : 0 < s.batch_size * s.parallel_paths) :
    ((s.initState (some p)).1.alive_seq
        = List.replicate (s.batch_size * s.parallel_paths) [s.start])
    ∧ ((s.initState none).1.alive_seq
        = List.replicate (s.batch_size * s.parallel_paths) [s.start])
    ∧ ((s.initState (some p)).1.is_finished_list
        = List.replicate s.batch_size (List.replicate s.parallel_paths false))
    ∧ (∀ row ∈ (s.initState (some p)).1.is_finished_list, ∀ b ∈ row, b = false)
    ∧ ((s.initState (some p)).1.forcedPref = some (p.map (fun r => r.drop 1)))
    ∧ (∃ m : Nat,
        m ∈ (p.map (fun r => r.drop 1)).map
              (fun r => (r.filter (fun x => x != s.pad)).length)
        ∧ (∀ c ∈ (p.map (fun r => r.drop 1)).map
              (fun r => (r.filter (fun x => x != s.pad)).length), c ≤ m)
        ∧ (s.initState (some p)).1.max_length = s.max_length + (m : Int) - 1)
    ∧ (∃ m : Nat,
        m ∈ (p.map (fun r => r.drop 1)).map
              (fun r => (r.filter (fun x => x != s.pad)).length)
        ∧ (∀ c ∈ (p.map (fun r => r.drop 1)).map
              (fun r => (r.filter (fun x => x != s.pad)).length), m ≤ c)
        ∧ (s.initState (some p)).1.min_length = s.min_length + (m : Int) - 1)
    ∧ ((s.initState (some p)).2 = none) := by
  have hcne : (p.map (fun r => r.drop 1)).map
      (fun r => (r.filter (fun x => x != s.pad)).length) ≠ [] := by
    apply List.ne_nil_of_length_pos
    simpa [hb] using hpos
  refine ⟨?_, ?_, ?_, ?_, ?_, ?_, ?_, ?_⟩
  · simp [DecodeStrategy.initState, hb]
  · simp [DecodeStrategy.initState]
  · simp [DecodeStrategy.initState, hb]
  · intro row hrow b hbm
    simp only [DecodeStrategy.initState, hb, if_true] at hrow
    rw [List.eq_of_mem_replicate hrow] at hbm
    exact List.eq_of_mem_replicate hbm
  · simp [DecodeStrategy.initState, hb]
  · refine ⟨natListMax _, natListMax_mem _ hcne, fun c hc => le_natListMax _ c hc, ?_⟩
    simp [DecodeStrategy.initState, hb]
  · refine ⟨natListMin _, natListMin_mem _ hcne, fun c hc => natListMin_le _ c hc, ?_⟩
    simp [DecodeStrategy.initState, hb]
  · simp [DecodeStrategy.initState, hb]

/-- C10: when the supplied forced prefix's row count differs from
batch_size * parallel_paths, `initialize` raises an assertion error, and in
the resulting object state no prefix has been stored and neither length bound
has been adjusted. -/
theorem initialize_assert_mismatch (s : DecodeStrategy) (p : List (List Nat))
    (hb : p.length ≠ s.batch_size * s.parallel_paths) :
    ((s.initState (some p)).2
        = some "forced target_prefix should have extend to same number of path")
    ∧ (s.initState (some p)).1.max_length = s.max_length
    ∧ (s.initState (some p)).1.min_length = s.min_length
    ∧ (s.initState (some p)).1.forcedPref = s.forcedPref := by
  refine ⟨?_, ?_, ?_, ?_⟩ <;> simp [DecodeStrategy.initState, hb]

/-- Concrete strategy for the initialize witnesses: batch 2, two parallel
paths, pad 0, start 1, min_length 1, max_length 10. -/
def exInitS : DecodeStrategy :=
  mkDecodeStrategy 0 1 (Sum.inl 2) 3 1 2 2 1 0 [] false 10 false

/-- Concrete tiled forced prefix with four rows. -/
def exInitP : List (List Nat) := [[1, 4, 5], [1, 4, 0], [1, 5, 0], [1, 0, 0]]

theorem initialize_spec_witness :
    (exInitP.length = exInitS.batch_size * exInitS.parallel_paths)
    ∧ (0 < exInitS.batch_size * exInitS.parallel_paths)
    ∧ (((exInitS.initState (some exInitP)).1.alive_seq
        = List.replicate (exInitS.batch_size * exInitS.parallel_paths) [exInitS.start])
    ∧ ((exInitS.initState none).1.alive_seq
        = List.replicate (exInitS.batch_size * exInitS.parallel_paths) [exInitS.start])
    ∧ ((exInitS.initState (some exInitP)).1.is_finished_list
        = List.replicate exInitS.batch_size (List.replicate exInitS.parallel_paths false))
    ∧ (∀ row ∈ (exInitS.initState (some exInitP)).1.is_finished_list,
          ∀ b ∈ row, b = false)
    ∧ ((exInitS.initState (some exInitP)).1.forcedPref
        = some (exInitP.map (fun r => r.drop 1)))
    ∧ (∃ m : Nat,
        m ∈ (exInitP.map (fun r => r.drop 1)).map
              (fun r => (r.filter (fun x => x != exInitS.pad)).length)
        ∧ (∀ c ∈ (exInitP.map (fun r => r.drop 1)).map
              (fun r => (r.filter (fun x => x != exInitS.pad)).length), c ≤ m)
        ∧ (exInitS.initState (some exInitP)).1.max_length
            = exInitS.max_length + (m : Int) - 1)
    ∧ (∃ m : Nat,
        m ∈ (exInitP.map (fun r => r.drop 1)).map
              (fun r => (r.filter (fun x => x != exInitS.pad)).length)
        ∧ (∀ c ∈ (exInitP.map (fun r => r.drop 1)).map
              (fun r => (r.filter (fun x => x != exInitS.pad)).length), m ≤ c)
        ∧ (exInitS.initState (some exInitP)).1.min_length
            = exInitS.min_length + (m : Int) - 1)
    ∧ ((exInitS.initState (some exInitP)).2 = none)) :=
  ⟨by decide, by decide, initialize_spec exInitS exInitP (by decide) (by decide)⟩

theorem initialize_assert_mismatch_witness :
    ([[1, 4]].length ≠ exInitS.batch_size * exInitS.parallel_paths)
    ∧ (((exInitS.initState (some [[1, 4]])).2
        = some "forced target_prefix should have extend to same number of path")
    ∧ (exInitS.initState (some [[1, 4]])).1.max_length = exInitS.max_length
    ∧ (exInitS.initState (some [[1, 4]])).1.min_length = exInitS.min_length
    ∧ (exInitS.initState (some [[1, 4]])).1.forcedPref = exInitS.forcedPref) :=
  ⟨by decide, initialize_assert_mismatch exInitS [[1, 4]] (by decide)⟩

/-! ### C2: forced-prefix masking -/

theorem exemptTok_iff (s : DecodeStrategy) (p : Nat) :
    exemptTok s p = true ↔ p ∈ s.eos ∨ p = s.pad := by
  simp [exemptTok]

theorem getD_map_of_lt (f : α → β) (l : List α) (i : Nat) (hi : i < l.length)
    (d : β) (d2 : α) : (l.map f).getD i d = f (l.getD i d2) := by
  rw [List.getD_eq_getElem?_getD, List.getElem?_map, List.getElem?_eq_getElem hi]
  have h2 : l.getD i d2 = l[i] := by
    rw [List.getD_eq_getElem?_getD, List.getElem?_eq_getElem hi]
    rfl
  rw [h2]
  rfl

theorem getD_mapIdxL_of_lt (f : Nat → α → β) (l : List α) (i : Nat)
    (hi : i < l.length) (d : β) (d2 : α) :
    (mapIdxL f l).getD i d = f i (l.getD i d2) := by
  rw [List.getD_eq_getElem?_getD, getElem?_mapIdxL, List.getElem?_eq_getElem hi]
  have h2 : l.getD i d2 = l[i] := by
    rw [List.getD_eq_getElem?_getD, List.getElem?_eq_getElem hi]
    rfl
  rw [h2]
  rfl

/-- C2: with a stored forced prefix, at every step index (= alive length) at
most the prefix width, `target_prefixing` leaves unchanged the score row of
every path whose prescribed token at the current position is an eos or pad id,
and on every other path's row subtracts the penalty 10000 from every column
except the prescribed token's, which keeps its score (so only it can win);
at every step index exceeding the prefix width it returns the scores unchanged
and `maybe_update_target_prefix` leaves the stored prefix unmodified. -/
theorem applyForcedPref_spec (s : DecodeStrategy) (lp : List (List Int))
    (tp : List (List Nat)) (htp : s.forcedPref = some tp)
    (hlen : tp.length = lp.length) (_hstep : 1 ≤ s.len) :
    (s.len ≤ prefWidth tp →
      ∀ i, i < lp.length → ∀ j,
        ((applyForcedPref s lp).getD i [])[j]?
          = (if (tp.getD i []).getD (s.len - 1) 0 ∈ s.eos
                ∨ (tp.getD i []).getD (s.len - 1) 0 = s.pad
             then (lp.getD i [])[j]?
             else Option.map
               (fun x => if j = (tp.getD i []).getD (s.len - 1) 0 then x
                 else x - 10000) (lp.getD i [])[j]?))
    ∧ (prefWidth tp < s.len →
        applyForcedPref s lp = lp
        ∧ ∀ sel : List Nat, (maybeUpdateForcedPref s sel).forcedPref = s.forcedPref) := by
  constructor
  · intro hle i hi j
    have hitp : i < tp.length := by omega
    have hpick : (tp.map (fun r => r.getD (s.len - 1) 0)).getD i 0
        = (tp.getD i []).getD (s.len - 1) 0 :=
      getD_map_of_lt _ tp i hitp 0 []
    have happ : applyForcedPref s lp =
        (if (tp.map (fun r => r.getD (s.len - 1) 0)).any (fun p => !(exemptTok s p))
         then mapIdxL (fun i row =>
            let pick := (tp.map (fun r => r.getD (s.len - 1) 0)).getD i 0
            if exemptTok s pick then row
            else mapIdxL (fun j x => if j = pick then x else x - 10000) row) lp
         else lp) := by
      simp only [applyForcedPref, htp, if_pos hle]
    by_cases hg : (tp.map (fun r => r.getD (s.len - 1) 0)).any
        (fun p => !(exemptTok s p)) = true
    · rw [happ, if_pos hg]
      rw [getD_mapIdxL_of_lt _ lp i hi [] []]
      simp only [hpick]
      by_cases hex : exemptTok s ((tp.getD i []).getD (s.len - 1) 0) = true
      · rw [if_pos hex, if_pos ((exemptTok_iff s _).mp hex)]
      · rw [if_neg hex, if_neg (fun hc => hex ((exemptTok_iff s _).mpr hc))]
        rw [getElem?_mapIdxL]
    · rw [happ, if_neg hg]
      have hallex : exemptTok s ((tp.getD i []).getD (s.len - 1) 0) = true := by
        have hall := List.any_eq_false.mp (Bool.eq_false_iff.mpr hg)
        have hmem : (tp.getD i []).getD (s.len - 1) 0
            ∈ tp.map (fun r => r.getD (s.len - 1) 0) := by
          rw [← hpick, List.getD_eq_getElem?_getD, List.getElem?_map,
            List.getElem?_eq_getElem hitp]
          exact List.mem_map_of_mem _ (List.getElem_mem hitp)
        have hb := hall _ hmem
        simpa using hb
      rw [if_pos ((exemptTok_iff s _).mp hallex)]
  · intro hw
    constructor
    · simp only [applyForcedPref, htp]
      rw [if_neg (by omega)]
    · intro sel
      simp only [maybeUpdateForcedPref, htp]
      rw [if_pos hw]
      exact htp

/-- Concrete state for the forced-prefix witness: two paths, eos set 2,
pad 0, stored prefix of width 2, alive length 1. -/
def exFpS : DecodeStrategy :=
  { mkDecodeStrategy 0 1 (Sum.inl 2) 3 1 2 1 0 0 [] false 9 false with
      alive_seq := [[1], [1]]
      is_finished_list := [[false], [false]]
      forcedPref := some [[4, 2], [2, 5]] }

def exFpTp : List (List Nat) := [[4, 2], [2, 5]]

def exFpLp : List (List Int) := [[0, 0, 0, 0, 0], [0, 0, 0, 0, 0]]

theorem applyForcedPref_spec_witness :
    (exFpS.forcedPref = some exFpTp)
    ∧ (exFpTp.length = exFpLp.length)
    ∧ (1 ≤ exFpS.len)
    ∧ ((exFpS.len ≤ prefWidth exFpTp →
        ∀ i, i < exFpLp.length → ∀ j,
          ((applyForcedPref exFpS exFpLp).getD i [])[j]?
            = (if (exFpTp.getD i []).getD (exFpS.len - 1) 0 ∈ exFpS.eos
                  ∨ (exFpTp.getD i []).getD (exFpS.len - 1) 0 = exFpS.pad
               then (exFpLp.getD i [])[j]?
               else Option.map
                 (fun x => if j = (exFpTp.getD i []).getD (exFpS.len - 1) 0 then x
                   else x - 10000) (exFpLp.getD i [])[j]?))
      ∧ (prefWidth exFpTp < exFpS.len →
          applyForcedPref exFpS exFpLp = exFpLp
          ∧ ∀ sel : List Nat,
              (maybeUpdateForcedPref exFpS sel).forcedPref = exFpS.forcedPref)) :=
  ⟨rfl, rfl, by decide, applyForcedPref_spec exFpS exFpLp exFpTp rfl rfl (by decide)⟩

/-! ### C3 and C4: ngram blocking and the forbidden-table update -/

theorem negSlice_of_ne_zero (l : List Nat) (n : Nat) (h : n ≠ 0) :
    negSlice l n = l.drop (l.length - n) := by
  unfold negSlice
  rw [if_neg h]

theorem getLastD_mem (l : List Nat) (d : Nat) (h : l ≠ []) : l.getLastD d ∈ l := by
  induction l generalizing d with
  | nil => exact absurd rfl h
  | cons a t ih =>
    rw [List.getLastD_cons]
    rcases List.eq_nil_or_concat t with ht | _
    · subst ht
      exact List.mem_singleton.mpr rfl
    · rcases t with _ | ⟨b, t2⟩
      · exact List.mem_singleton.mpr rfl
      · exact List.mem_cons_of_mem a (ih a (by simp))

theorem tableOK_tableAdd (excl : List Nat) (t : NgramTable) (key : List Nat)
    (tok : Nat) (ht : tableOK excl t) (hkey : ∀ x ∈ key ++ [tok], x ∉ excl) :
    tableOK excl (tableAdd t key tok) := by
  induction t with
  | nil =>
    intro e he tok2 htok2 x hx
    simp only [tableAdd, List.mem_singleton] at he
    subst he
    simp only [List.mem_singleton] at htok2
    subst htok2
    exact hkey x hx
  | cons e0 rest ih =>
    have hrest : tableOK excl rest := fun e' he' => ht e' (List.mem_cons_of_mem _ he')
    intro e he tok2 htok2 x hx
    by_cases hk0 : e0.1 = key
    · simp only [tableAdd, if_pos hk0] at he
      rcases List.mem_cons.mp he with h | h
      · subst h
        simp only at htok2
        by_cases hmem : tok ∈ e0.2
        · rw [if_pos hmem] at htok2
          exact ht e0 (List.mem_cons_self e0 rest) tok2 htok2 x hx
        · rw [if_neg hmem] at htok2
          rcases List.mem_append.mp htok2 with h2 | h2
          · exact ht e0 (List.mem_cons_self e0 rest) tok2 h2 x hx
          · rw [List.mem_singleton] at h2
            subst h2
            rw [hk0] at hx
            exact hkey x hx
      · exact hrest e h tok2 htok2 x hx
    · simp only [tableAdd, if_neg hk0] at he
      rcases List.mem_cons.mp he with h | h
      · subst h
        exact ht e (List.mem_cons_self e rest) tok2 htok2 x hx
      · exact ih hrest e h tok2 htok2 x hx

theorem tableOK_updateOneTable (excl : List Nat) (k : Nat) (t : NgramTable)
    (seq : List Nat) (hk1 : 1 ≤ k) (hseq : seq ≠ []) (ht : tableOK excl t) :
    tableOK excl (updateOneTable excl k t seq) := by
  unfold updateOneTable
  by_cases hany : (negSlice seq k).any excl.contains = true
  · rw [if_pos hany]
    exact ht
  · rw [if_neg hany]
    have hng : negSlice seq k ≠ [] := by
      rw [negSlice_of_ne_zero seq k (by omega)]
      intro hcon
      rw [List.drop_eq_nil_iff] at hcon
      have hpos : 0 < seq.length := List.length_pos.mpr hseq
      omega
    have hnot : ∀ x ∈ negSlice seq k, x ∉ excl := by
      intro x hx hmem
      apply hany
      exact List.any_eq_true.mpr ⟨x, hx, List.elem_iff.mpr hmem⟩
    apply tableOK_tableAdd excl t _ _ ht
    intro x hx
    rcases List.mem_append.mp hx with h | h
    · exact hnot x (List.dropLast_subset _ h)
    · rw [List.mem_singleton] at h
      subst h
      exact hnot _ (getLastD_mem _ _ hng)

theorem getD_of_lt (l : List α) (i : Nat) (h : i < l.length) (d : α) :
    l.getD i d = l[i] := by
  rw [List.getD_eq_getElem?_getD, List.getElem?_eq_getElem h]
  rfl

theorem tableOK_getD (excl : List Nat) (ts : List NgramTable) (i : Nat)
    (hOK : ∀ t ∈ ts, tableOK excl t) : tableOK excl (ts.getD i []) := by
  by_cases hi : i < ts.length
  · rw [getD_of_lt ts i hi]
    exact hOK _ (List.getElem_mem hi)
  · have he : ts.getD i [] = [] := by
      rw [List.getD_eq_getElem?_getD, List.getElem?_eq_none (Nat.le_of_not_lt hi)]
      rfl
    rw [he]
    intro e he2
    cases he2

/-- C3 (restricted to block sizes k >= 2): when the alive length is at least k
and the (k-1)-token suffix of a path's sequence is present in that path's
forbidden table, `block_ngram_repeats` sets the score of every token forbidden
for that suffix to the sentinel -10e20, leaving every other token of that path
unchanged, and each path's row depends only on that path's own table and
sequence (a row with no table hit is returned unchanged); moreover a token is
only ever recorded as forbidden for a suffix when no member of the recorded
ngram (the suffix plus the token) is in the exclusion set: fresh tables are
empty and `maybe_update_forbidden_tokens` preserves this invariant. -/
theorem blockNgramRepeats_spec (s : DecodeStrategy) (lp : List (List Int))
    (hk : 2 ≤ s.block_ngram_repeat) (hlen : s.block_ngram_repeat ≤ (s.len : Int))
    (hrect : ∀ q ∈ s.alive_seq, q ≠ []) :
    (∀ i, i < lp.length →
      (∀ forb, tableGet (s.forbidden_tokens.getD i [])
          ((s.alive_seq.getD i []).drop
            ((s.alive_seq.getD i []).length - (s.block_ngram_repeat.toNat - 1)))
          = some forb →
        ∀ j, ((blockNgramRepeats s lp).getD i [])[j]?
          = (if j ∈ forb ∧ j < (lp.getD i []).length then some ngramSentinel
             else (lp.getD i [])[j]?))
      ∧ (tableGet (s.forbidden_tokens.getD i [])
          ((s.alive_seq.getD i []).drop
            ((s.alive_seq.getD i []).length - (s.block_ngram_repeat.toNat - 1)))
          = none →
        (blockNgramRepeats s lp).getD i [] = lp.getD i []))
    ∧ ((∀ t ∈ s.forbidden_tokens, tableOK s.exclusion_tokens t) →
        ∀ t ∈ (maybeUpdateForbiddenTokens s).forbidden_tokens,
          tableOK s.exclusion_tokens t)
    ∧ (∀ (pad bos unk start bsz pp : Nat) (eosArg : Nat ⊕ List Nat)
        (minl bnr maxl : Int) (excl : List Nat) (ra banu : Bool),
        ∀ t ∈ (mkDecodeStrategy pad bos eosArg unk start bsz pp minl bnr excl ra
          maxl banu).forbidden_tokens, t = ([] : NgramTable)) := by
  have hn1 : (s.block_ngram_repeat - 1).toNat = s.block_ngram_repeat.toNat - 1 := by
    omega
  have hne0 : (s.block_ngram_repeat - 1).toNat ≠ 0 := by omega
  have hblock : blockNgramRepeats s lp = mapIdxL (fun i row =>
      match tableGet (s.forbidden_tokens.getD i [])
          (negSlice (s.alive_seq.getD i []) ((s.block_ngram_repeat - 1).toNat)) with
      | some forb => setAll row forb ngramSentinel
      | none => row) lp := by
    unfold blockNgramRepeats
    rw [if_neg (by omega), if_neg (by omega)]
  refine ⟨?_, ?_, ?_⟩
  · intro i hi
    have hrow : (blockNgramRepeats s lp).getD i []
        = (match tableGet (s.forbidden_tokens.getD i [])
            ((s.alive_seq.getD i []).drop
              ((s.alive_seq.getD i []).length - (s.block_ngram_repeat.toNat - 1))) with
          | some forb => setAll (lp.getD i []) forb ngramSentinel
          | none => lp.getD i []) := by
      rw [hblock, getD_mapIdxL_of_lt _ lp i hi [] [],
        negSlice_of_ne_zero _ _ hne0, hn1]
    constructor
    · intro forb hget j
      rw [hrow, hget, getElem?_setAll]
    · intro hget
      rw [hrow, hget]
  · intro hOK t htmem
    have hupd : (maybeUpdateForbiddenTokens s).forbidden_tokens
        = (s.select_indices.zip s.alive_seq).map
          (fun pi_seq => updateOneTable s.exclusion_tokens
            s.block_ngram_repeat.toNat
            (s.forbidden_tokens.getD pi_seq.1 []) pi_seq.2) := by
      unfold maybeUpdateForbiddenTokens
      rw [if_neg (by omega), if_neg (by omega)]
    rw [hupd] at htmem
    simp only [List.mem_map] at htmem
    obtain ⟨pi_seq, hz, hteq⟩ := htmem
    rw [← hteq]
    exact tableOK_updateOneTable s.exclusion_tokens s.block_ngram_repeat.toNat _
      pi_seq.2 (by omega) (hrect _ (List.of_mem_zip hz).2)
      (tableOK_getD s.exclusion_tokens s.forbidden_tokens pi_seq.1 hOK)
  · intro pad bos unk start bsz pp eosArg minl bnr maxl excl ra banu t htm
    exact List.eq_of_mem_replicate htm

/-- Concrete state refuting C3 at block size 1: the 0-token suffix (the empty
tuple) is a key of the path's forbidden table forbidding token 4, nothing is
excluded, yet `block_ngram_repeats` changes nothing, because the Python slice
`alive_seq[path, -0:]` is the whole sequence rather than the empty suffix. -/
def exK1S : DecodeStrategy :=
  { mkDecodeStrategy 0 1 (Sum.inl 2) 3 1 1 1 0 1 [] false 9 false with
      alive_seq := [[1, 4]]
      is_finished_list := [[false]]
      forbidden_tokens := [[([], [4])]]
      select_indices := [0] }

/-- C3 counterexample (claim as stated, at k = 1): every hypothesis of the
claim holds -- positive block size, alive length at least k, the (k-1)-token
suffix `[]` is present in the path's table with forbidden token 4, and neither
4 nor any recorded ngram member is excluded -- yet token 4's score is left at
0 instead of being set to the sentinel. -/
theorem blockNgramRepeats_k1_cx :
    (0 : Int) < exK1S.block_ngram_repeat
    ∧ exK1S.block_ngram_repeat ≤ (exK1S.len : Int)
    ∧ tableGet (exK1S.forbidden_tokens.getD 0 []) [] = some [4]
    ∧ tableOK exK1S.exclusion_tokens (exK1S.forbidden_tokens.getD 0 [])
    ∧ blockNgramRepeats exK1S [[0, 0, 0, 0, 0]] = [[0, 0, 0, 0, 0]]
    ∧ ((blockNgramRepeats exK1S [[0, 0, 0, 0, 0]]).getD 0 [])[4]? = some 0
    ∧ ngramSentinel ≠ 0 := by
  refine ⟨by decide, by decide, by decide, by decide, by decide, by decide, by decide⟩

/-- Concrete state for the (k = 2) blocking witness: path sequence [1, 4, 5],
table maps the 1-token suffix [5] to forbidden token 4. -/
def exK2S : DecodeStrategy :=
  { mkDecodeStrategy 0 1 (Sum.inl 2) 3 1 1 1 0 2 [] false 9 false with
      alive_seq := [[1, 4, 5]]
      is_finished_list := [[false]]
      forbidden_tokens := [[([5], [4])]]
      select_indices := [0] }

theorem blockNgramRepeats_spec_witness :
    ((2 : Int) ≤ exK2S.block_ngram_repeat)
    ∧ (exK2S.block_ngram_repeat ≤ (exK2S.len : Int))
    ∧ (∀ q ∈ exK2S.alive_seq, q ≠ [])
    ∧ ((∀ i, i < ([[(0 : Int), 0, 0, 0, 0, 0]] : List (List Int)).length →
      (∀ forb, tableGet (exK2S.forbidden_tokens.getD i [])
          ((exK2S.alive_seq.getD i []).drop
            ((exK2S.alive_seq.getD i []).length - (exK2S.block_ngram_repeat.toNat - 1)))
          = some forb →
        ∀ j, ((blockNgramRepeats exK2S [[(0 : Int), 0, 0, 0, 0, 0]]).getD i [])[j]?
          = (if j ∈ forb ∧ j < (([[(0 : Int), 0, 0, 0, 0, 0]] : List (List Int)).getD i []).length
             then some ngramSentinel
             else (([[(0 : Int), 0, 0, 0, 0, 0]] : List (List Int)).getD i [])[j]?))
      ∧ (tableGet (exK2S.forbidden_tokens.getD i [])
          ((exK2S.alive_seq.getD i []).drop
            ((exK2S.alive_seq.getD i []).length - (exK2S.block_ngram_repeat.toNat - 1)))
          = none →
        (blockNgramRepeats exK2S [[(0 : Int), 0, 0, 0, 0, 0]]).getD i []
          = ([[(0 : Int), 0, 0, 0, 0, 0]] : List (List Int)).getD i []))
    ∧ ((∀ t ∈ exK2S.forbidden_tokens, tableOK exK2S.exclusion_tokens t) →
        ∀ t ∈ (maybeUpdateForbiddenTokens exK2S).forbidden_tokens,
          tableOK exK2S.exclusion_tokens t)
    ∧ (∀ (pad bos unk start bsz pp : Nat) (eosArg : Nat ⊕ List Nat)
        (minl bnr maxl : Int) (excl : List Nat) (ra banu : Bool),
        ∀ t ∈ (mkDecodeStrategy pad bos eosArg unk start bsz pp minl bnr excl ra
          maxl banu).forbidden_tokens, t = ([] : NgramTable))) :=
  ⟨by decide, by decide, by decide,
    blockNgramRepeats_spec exK2S [[(0 : Int), 0, 0, 0, 0, 0]] (by decide) (by decide)
      (by decide)⟩

theorem getD_zip_of_lt (l1 : List α) (l2 : List β) (i : Nat)
    (h1 : i < l1.length) (h2 : i < l2.length) (d1 : α) (d2 : β) :
    (l1.zip l2).getD i (d1, d2) = (l1.getD i d1, l2.getD i d2) := by
  have hz : i < (l1.zip l2).length := by
    rw [List.length_zip]
    exact lt_min h1 h2
  rw [getD_of_lt _ _ hz, getD_of_lt _ _ h1, getD_of_lt _ _ h2, List.getElem_zip]

/-- `tableAdd` behaves as `dict.setdefault(key, set()).add(tok)`: looked up at
the added key it returns the previous set extended with `tok` (unchanged if
`tok` was already present), and at any other key it returns what the old table
returned. -/
theorem tableGet_tableAdd (t : NgramTable) (key key2 : List Nat) (tok : Nat) :
    tableGet (tableAdd t key tok) key2
      = if key2 = key
        then some (((tableGet t key).getD []) ++
            (if tok ∈ (tableGet t key).getD [] then [] else [tok]))
        else tableGet t key2 := by
  induction t with
  | nil =>
    by_cases h : key2 = key
    · subst h
      simp [tableAdd, tableGet]
    · have h2 : ¬ (key = key2) := fun hh => h hh.symm
      simp [tableAdd, tableGet, h, h2]
  | cons e rest ih =>
    by_cases h1 : e.1 = key
    · by_cases h2 : key2 = key
      · subst h2
        simp only [tableAdd, if_pos h1, tableGet, h1, if_pos rfl]
        by_cases hmem : tok ∈ e.2 <;> simp [hmem]
      · have h3 : ¬ (e.1 = key2) := by
          rw [h1]
          exact fun hh => h2 hh.symm
        have h4 : ¬ (key = key2) := fun hh => h2 hh.symm
        simp [tableAdd, tableGet, h1, h2, h3, h4]
    · by_cases h2 : key2 = key
      · subst h2
        simp [tableAdd, tableGet, h1, ih]
      · by_cases h3 : e.1 = key2
        · simp [tableAdd, tableGet, h1, h2, h3]
        · simp [tableAdd, tableGet, h1, h2, h3, ih]

/-- C4: with a positive block size, `maybe_update_forbidden_tokens` leaves the
state unchanged while the alive length is below the block size; otherwise the
new table list has one entry per (select index, sequence) pair, and the table
at position i is (a value copy of) the pre-selection table of path
`select_indices[i]`, extended -- via the setdefault/add step `tableAdd` --
with the mapping from the (k-1)-token prefix of sequence i's last k tokens to
its last token, except that nothing is added when those last k tokens
intersect the exclusion set. -/
theorem maybeUpdateForbiddenTokens_spec (s : DecodeStrategy)
    (hk : 0 < s.block_ngram_repeat) :
    ((s.len : Int) < s.block_ngram_repeat → maybeUpdateForbiddenTokens s = s)
    ∧ (s.block_ngram_repeat ≤ (s.len : Int) →
        ((maybeUpdateForbiddenTokens s).forbidden_tokens.length
            = min s.select_indices.length s.alive_seq.length)
        ∧ (∀ i, i < s.select_indices.length → i < s.alive_seq.length →
            ((∃ x ∈ (s.alive_seq.getD i []).drop
                ((s.alive_seq.getD i []).length - s.block_ngram_repeat.toNat),
                x ∈ s.exclusion_tokens) →
              (maybeUpdateForbiddenTokens s).forbidden_tokens.getD i []
                = s.forbidden_tokens.getD (s.select_indices.getD i 0) [])
            ∧ ((∀ x ∈ (s.alive_seq.getD i []).drop
                ((s.alive_seq.getD i []).length - s.block_ngram_repeat.toNat),
                x ∉ s.exclusion_tokens) →
              (maybeUpdateForbiddenTokens s).forbidden_tokens.getD i []
                = tableAdd (s.forbidden_tokens.getD (s.select_indices.getD i 0) [])
                    ((s.alive_seq.getD i []).drop
                      ((s.alive_seq.getD i []).length
                        - s.block_ngram_repeat.toNat)).dropLast
                    (((s.alive_seq.getD i []).drop
                      ((s.alive_seq.getD i []).length
                        - s.block_ngram_repeat.toNat)).getLastD 0)))) := by
  constructor
  · intro hlt
    unfold maybeUpdateForbiddenTokens
    rw [if_neg (by omega), if_pos hlt]
  · intro hge
    have hupd : (maybeUpdateForbiddenTokens s).forbidden_tokens
        = (s.select_indices.zip s.alive_seq).map
          (fun pi_seq => updateOneTable s.exclusion_tokens
            s.block_ngram_repeat.toNat
            (s.forbidden_tokens.getD pi_seq.1 []) pi_seq.2) := by
      unfold maybeUpdateForbiddenTokens
      rw [if_neg (by omega), if_neg (by omega)]
    constructor
    · rw [hupd, List.length_map, List.length_zip]
    · intro i h1 h2
      have hz : i < (s.select_indices.zip s.alive_seq).length := by
        rw [List.length_zip]
        exact lt_min h1 h2
      have hns : negSlice (s.alive_seq.getD i []) s.block_ngram_repeat.toNat
          = (s.alive_seq.getD i []).drop
              ((s.alive_seq.getD i []).length - s.block_ngram_repeat.toNat) :=
        negSlice_of_ne_zero _ _ (by omega)
      have hget_i : (maybeUpdateForbiddenTokens s).forbidden_tokens.getD i []
          = updateOneTable s.exclusion_tokens s.block_ngram_repeat.toNat
              (s.forbidden_tokens.getD (s.select_indices.getD i 0) [])
              (s.alive_seq.getD i []) := by
        rw [hupd, getD_map_of_lt _ _ i hz [] (0, []),
          getD_zip_of_lt _ _ i h1 h2 0 []]
      constructor
      · intro hex
        obtain ⟨x, hx, hxmem⟩ := hex
        have hany : (negSlice (s.alive_seq.getD i [])
            s.block_ngram_repeat.toNat).any s.exclusion_tokens.contains = true := by
          rw [hns]
          exact List.any_eq_true.mpr ⟨x, hx, List.elem_iff.mpr hxmem⟩
        rw [hget_i]
        unfold updateOneTable
        rw [if_pos hany]
      · intro hnone
        have hany : (negSlice (s.alive_seq.getD i [])
            s.block_ngram_repeat.toNat).any s.exclusion_tokens.contains = false := by
          rw [hns, List.any_eq_false]
          intro x hx
          simpa using hnone x hx
        rw [hget_i]
        unfold updateOneTable
        rw [if_neg (by rw [hany]; exact Bool.false_ne_true), hns]

/-- Concrete state for the table-update witness: block size 2, exclusion set
containing 6, two paths whose selection swapped the path order. -/
def exUpdS : DecodeStrategy :=
  { mkDecodeStrategy 0 1 (Sum.inl 2) 3 1 2 1 0 2 [6] false 9 false with
      alive_seq := [[1, 4, 5], [1, 5, 6]]
      is_finished_list := [[false], [false]]
      forbidden_tokens := [[([9], [7])], []]
      select_indices := [1, 0] }

theorem maybeUpdateForbiddenTokens_spec_witness :
    ((0 : Int) < exUpdS.block_ngram_repeat)
    ∧ (((exUpdS.len : Int) < exUpdS.block_ngram_repeat →
        maybeUpdateForbiddenTokens exUpdS = exUpdS)
    ∧ (exUpdS.block_ngram_repeat ≤ (exUpdS.len : Int) →
        ((maybeUpdateForbiddenTokens exUpdS).forbidden_tokens.length
            = min exUpdS.select_indices.length exUpdS.alive_seq.length)
        ∧ (∀ i, i < exUpdS.select_indices.length → i < exUpdS.alive_seq.length →
            ((∃ x ∈ (exUpdS.alive_seq.getD i []).drop
                ((exUpdS.alive_seq.getD i []).length - exUpdS.block_ngram_repeat.toNat),
                x ∈ exUpdS.exclusion_tokens) →
              (maybeUpdateForbiddenTokens exUpdS).forbidden_tokens.getD i []
                = exUpdS.forbidden_tokens.getD (exUpdS.select_indices.getD i 0) [])
            ∧ ((∀ x ∈ (exUpdS.alive_seq.getD i []).drop
                ((exUpdS.alive_seq.getD i []).length - exUpdS.block_ngram_repeat.toNat),
                x ∉ exUpdS.exclusion_tokens) →
              (maybeUpdateForbiddenTokens exUpdS).forbidden_tokens.getD i []
                = tableAdd (exUpdS.forbidden_tokens.getD
                      (exUpdS.select_indices.getD i 0) [])
                    ((exUpdS.alive_seq.getD i []).drop
                      ((exUpdS.alive_seq.getD i []).length
                        - exUpdS.block_ngram_repeat.toNat)).dropLast
                    (((exUpdS.alive_seq.getD i []).drop
                      ((exUpdS.alive_seq.getD i []).length
                        - exUpdS.block_ngram_repeat.toNat)).getLastD 0))))) :=
  ⟨by decide, maybeUpdateForbiddenTokens_spec exUpdS (by decide)⟩

/-! ### Transformer decoder cache state (transformer_decoder.py)

The decoder-level cache handling of `TransformerDecoder.forward` and
`_init_cache` is in src and embedded directly.  The attention modules
(`MultiHeadedAttention`, `AverageAttention` in eole.modules) are not in src;
the one fact about them that C7 needs -- the context-attention cache is filled
once from the fixed encoder output and then reused -- is modelled from the
spec below (`ctxCacheUse`). -/

/-- A 3-d tensor of exact values; `[]` models `torch.tensor([])`. -/
abbrev T3 : Type := List (List (List Int))

/-- `isinstance(layer.self_attn, AverageAttention)` distinguishes the two
self-attention kinds. -/
inductive SelfAttnKind
  | standard
  | average
deriving DecidableEq, Repr

/-- The dict part of a self-attention `layer_cache`: keys/values for standard
attention, `prev_g` for average attention. -/
inductive SelfCacheData
  | kv (keys values : T3)
  | avg (prev_g : T3)
deriving DecidableEq, Repr

/-- One decoder layer's mutable cache state: `self_attn.layer_cache` and
`context_attn.layer_cache`, each a (flag, buffers) pair. -/
structure DecLayer where
  self_attn_kind : SelfAttnKind
  self_cache : Bool × SelfCacheData
  ctx_cache : Bool × (T3 × T3)
deriving DecidableEq, Repr

/-- The cache-relevant state of a `TransformerDecoder`: its layer list. -/
structure TransformerDecoderState where
  layers : List DecLayer
deriving DecidableEq, Repr

/-- `TransformerDecoder._init_cache(enc_out)`: for every layer, an active
empty context cache, and an active self cache that is empty (standard) or a
zero tensor of shape (batch_size, 1, depth) read from the encoder output
(average attention). -/
def initCache (enc_out : T3) (d : TransformerDecoderState) :
    TransformerDecoderState :=
  let batch_size := enc_out.length
  let depth := ((enc_out.headD []).headD []).length
  { layers := d.layers.map (fun layer =>
      { layer with
        ctx_cache := (true, ([], []))
        self_cache :=
          match layer.self_attn_kind with
          | SelfAttnKind.average =>
              (true, SelfCacheData.avg
                (List.replicate batch_size [List.replicate depth 0]))
          | SelfAttnKind.standard => (true, SelfCacheData.kv [] []) }) }

/-- The `step is None` branch of `TransformerDecoder.forward`: every layer's
self and context cache flag is set inactive (with empty buffers). -/
def deactivateCaches (d : TransformerDecoderState) : TransformerDecoderState :=
  { layers := d.layers.map (fun layer =>
      { layer with
        self_cache :=
          match layer.self_attn_kind with
          | SelfAttnKind.average => (false, SelfCacheData.avg [])
          | SelfAttnKind.standard => (false, SelfCacheData.kv [] [])
        ctx_cache := (false, ([], [])) }) }

/-- The cache-state transition performed at the top of
`TransformerDecoder.forward` for a given step argument: step 0 reinitializes,
step None disables, any later step leaves the caches untouched. -/
def forwardCacheSetup (d : TransformerDecoderState) (enc_out : T3)
    (step : Option Nat) : TransformerDecoderState :=
  match step with
  | some 0 => initCache enc_out d
  | none => deactivateCaches d
  | some _ => d

/-- Modelled from the spec: the context-attention cache use inside
`MultiHeadedAttention.forward` (eole.modules, not in src).  With an active
cache whose keys are empty, the keys/values are derived once from the fixed
encoder output through the projection maps fK, fV; afterwards the stored
keys/values are reused unchanged. -/
def ctxCacheUse (fK fV : T3 → T3) (enc_out : T3) (c : Bool × (T3 × T3)) :
    Bool × (T3 × T3) :=
  if c.1 then (if c.2.1 = [] then (true, (fK enc_out, fV enc_out)) else c) else c

/-- Modelled from the spec: one decoding step's effect on a single layer's
context-attention cache. -/
def ctxStepLayer (fK fV : T3 → T3) (enc_out : T3) (layer : DecLayer) : DecLayer :=
  { layer with ctx_cache := ctxCacheUse fK fV enc_out layer.ctx_cache }

/-- Modelled from the spec: the effect of one decoding step on every layer's
context-attention cache (the self-attention caches evolve separately). -/
def ctxStep (fK fV : T3 → T3) (enc_out : T3) (d : TransformerDecoderState) :
    TransformerDecoderState :=
  { layers := d.layers.map (ctxStepLayer fK fV enc_out) }

theorem ctxCacheUse_idem (fK fV : T3 → T3) (enc_out : T3) (c : Bool × (T3 × T3)) :
    ctxCacheUse fK fV enc_out (ctxCacheUse fK fV enc_out c)
      = ctxCacheUse fK fV enc_out c := by
  unfold ctxCacheUse
  by_cases h1 : c.1
  · by_cases h2 : c.2.1 = []
    · simp only [h1, h2, if_true, if_pos]
      by_cases h3 : fK enc_out = [] <;> simp [h3]
    · simp [h1, h2]
  · simp [h1]

theorem ctxStepLayer_idem (fK fV : T3 → T3) (e : T3) (layer : DecLayer) :
    ctxStepLayer fK fV e (ctxStepLayer fK fV e layer) = ctxStepLayer fK fV e layer := by
  unfold ctxStepLayer
  dsimp
  rw [ctxCacheUse_idem]

/-- C7: `forward` with step = 0 (re)initializes every layer's caches: an
active empty self-attention key/value cache (standard attention) or an active
zeroed running-average cache of shape (current path count, 1, encoder hidden
width) (average attention), and an active context-attention cache, which is
empty at init and is filled once from the fixed encoder output at its first
use and then persists unchanged across subsequent steps (later steps leave
the caches untouched at the decoder level, and reapplying the context-cache
use changes nothing); `forward` with step = None sets every layer's
self-attention and cross-attention cache flags to inactive. -/
theorem forwardCacheSetup_spec (d : TransformerDecoderState) (e : T3)
    (fK fV : T3 → T3) (k : Nat) :
    (∀ l ∈ (forwardCacheSetup d e (some 0)).layers,
        l.ctx_cache = (true, ([], []))
        ∧ (l.self_attn_kind = SelfAttnKind.standard →
            l.self_cache = (true, SelfCacheData.kv [] []))
        ∧ (l.self_attn_kind = SelfAttnKind.average →
            l.self_cache = (true, SelfCacheData.avg
              (List.replicate e.length
                [List.replicate ((e.headD []).headD []).length 0]))))
    ∧ (∀ l ∈ (forwardCacheSetup d e none).layers,
        l.self_cache.1 = false ∧ l.ctx_cache.1 = false)
    ∧ (0 < k → forwardCacheSetup d e (some k) = d)
    ∧ (∀ l ∈ (ctxStep fK fV e (forwardCacheSetup d e (some 0))).layers,
        l.ctx_cache = (true, (fK e, fV e)))
    ∧ (ctxStep fK fV e (ctxStep fK fV e (forwardCacheSetup d e (some 0)))
        = ctxStep fK fV e (forwardCacheSetup d e (some 0))) := by
  refine ⟨?_, ?_, ?_, ?_, ?_⟩
  · intro l hl
    simp only [forwardCacheSetup, initCache, List.mem_map] at hl
    obtain ⟨l0, _, hleq⟩ := hl
    subst hleq
    refine ⟨rfl, ?_, ?_⟩
    · intro hk
      cases hkind : l0.self_attn_kind
      · simp [hkind]
      · simp [hkind] at hk
    · intro hk
      cases hkind : l0.self_attn_kind
      · simp [hkind] at hk
      · simp [hkind]
  · intro l hl
    simp only [forwardCacheSetup, deactivateCaches, List.mem_map] at hl
    obtain ⟨l0, _, hleq⟩ := hl
    subst hleq
    cases hkind : l0.self_attn_kind <;> simp [hkind]
  · intro hk
    cases k with
    | zero => omega
    | succ n => rfl
  · intro l hl
    simp only [forwardCacheSetup, initCache, ctxStep, List.map_map,
      List.mem_map] at hl
    obtain ⟨l0, _, hleq⟩ := hl
    subst hleq
    simp [ctxStepLayer, ctxCacheUse]
  · have hmm : ∀ L : List DecLayer,
        (L.map (ctxStepLayer fK fV e)).map (ctxStepLayer fK fV e)
          = L.map (ctxStepLayer fK fV e) := by
      intro L
      induction L with
      | nil => rfl
      | cons a t ih => simp [List.map_cons, ctxStepLayer_idem, ih]
    show TransformerDecoderState.mk _ = TransformerDecoderState.mk _
    rw [TransformerDecoderState.mk.injEq]
    exact hmm _

/-- Concrete two-layer decoder (one standard, one average) with stale caches. -/
def exDec : TransformerDecoderState :=
  { layers :=
      [ { self_attn_kind := SelfAttnKind.standard
          self_cache := (true, SelfCacheData.kv [[[7]]] [[[8]]])
          ctx_cache := (true, ([[[9]]], [[[9]]])) },
        { self_attn_kind := SelfAttnKind.average
          self_cache := (true, SelfCacheData.avg [[[7]]])
          ctx_cache := (false, ([], [])) } ] }

/-- Concrete encoder output: one path, source length 2, hidden width 2. -/
def exEnc : T3 := [[[1, 2], [3, 4]]]

theorem forwardCacheSetup_spec_witness :
    (∀ l ∈ (forwardCacheSetup exDec exEnc (some 0)).layers,
        l.ctx_cache = (true, ([], []))
        ∧ (l.self_attn_kind = SelfAttnKind.standard →
            l.self_cache = (true, SelfCacheData.kv [] []))
        ∧ (l.self_attn_kind = SelfAttnKind.average →
            l.self_cache = (true, SelfCacheData.avg
              (List.replicate exEnc.length
                [List.replicate ((exEnc.headD []).headD []).length 0]))))
    ∧ (∀ l ∈ (forwardCacheSetup exDec exEnc none).layers,
        l.self_cache.1 = false ∧ l.ctx_cache.1 = false)
    ∧ (0 < 3 → forwardCacheSetup exDec exEnc (some 3) = exDec)
    ∧ (∀ l ∈ (ctxStep id id exEnc (forwardCacheSetup exDec exEnc (some 0))).layers,
        l.ctx_cache = (true, (id exEnc, id exEnc)))
    ∧ (ctxStep id id exEnc (ctxStep id id exEnc (forwardCacheSetup exDec exEnc (some 0)))
        = ctxStep id id exEnc (forwardCacheSetup exDec exEnc (some 0))) :=
  forwardCacheSetup_spec exDec exEnc id id 3

/-! ### C6: incremental decoding equals the full non-incremental pass

The attention and feed-forward internals of a decoder layer live in
eole.modules / transformer_base, which are not in src.  What the spec fixes
about them is causality: with causal masking, a layer's output at position t
is a function of the layer inputs at positions 0..t only, and in incremental
decoding each layer's cache accumulates exactly the step inputs it has seen
(appending one entry per step, never recomputing past steps).  A layer is
therefore modelled as an arbitrary function `f` from the accumulated input
history (oldest first, current position last) to the output representation at
the current position, and the equivalence is proved exactly for every such
`f`, which subsumes the claim's numerical tolerance. -/

/-- Modelled from the spec: one layer's full non-incremental pass with causal
masking over a whole sequence: position t sees positions 0..t. -/
def layerFullPass (f : List α → α) (xs : List α) : List α :=
  (List.range xs.length).map (fun t => f (xs.take (t + 1)))

/-- Modelled from the spec: one incremental step through the layer stack:
each layer appends the incoming representation to its cache and feeds its
output on the grown cache to the next layer; a missing cache is treated as
empty.  Returns the updated per-layer caches and the last layer's output. -/
def stackStep : List (List α → α) → List (List α) → α → List (List α) × α
  | [], _, x => ([], x)
  | f :: fs, [], x =>
      let c2 := [x]
      let r := stackStep fs [] (f c2)
      (c2 :: r.1, r.2)
  | f :: fs, c :: cs, x =>
      let c2 := c ++ [x]
      let r := stackStep fs cs (f c2)
      (c2 :: r.1, r.2)

/-- Modelled from the spec: run the stack incrementally over an input stream,
one token per step (step = 0, 1, 2, ...), threading the per-layer caches, and
collect the per-step outputs. -/
def runInc (fs : List (List α → α)) :
    List (List α) → List α → List (List α) × List α
  | caches, [] => (caches, [])
  | caches, x :: xs =>
      let r := stackStep fs caches x
      let rest := runInc fs r.1 xs
      (rest.1, r.2 :: rest.2)

/-- Modelled from the spec: the full non-incremental pass of the whole layer
stack (step = None) with causal masking. -/
def stackFullPass (fs : List (List α → α)) (xs : List α) : List α :=
  fs.foldl (fun acc f => layerFullPass f acc) xs

/-- The per-layer input histories after the stack has causally processed ys:
layer 0 has seen ys itself, layer 1 the previous layer's outputs, and so on. -/
def cachesOf : List (List α → α) → List α → List (List α)
  | [], _ => []
  | f :: fs, ys => ys :: cachesOf fs (layerFullPass f ys)

theorem layerFullPass_append_one (f : List α → α) (xs : List α) (x : α) :
    layerFullPass f (xs ++ [x]) = layerFullPass f xs ++ [f (xs ++ [x])] := by
  unfold layerFullPass
  rw [List.length_append, List.length_singleton, List.range_succ, List.map_append]
  congr 1
  · apply List.map_congr_left
    intro t ht
    have htlt : t + 1 ≤ xs.length := List.mem_range.mp ht
    rw [List.take_append_eq_append_take]
    have h0 : t + 1 - xs.length = 0 := by omega
    rw [h0, List.take_zero, List.append_nil]
  · have hfull : (xs ++ [x]).take (xs.length + 1) = xs ++ [x] := by
      apply List.take_of_length_le
      simp
    rw [List.map_singleton, hfull]

theorem stackStep_fst (fs : List (List α → α)) (ys : List α) (x : α) :
    (stackStep fs (cachesOf fs ys) x).1 = cachesOf fs (ys ++ [x]) := by
  induction fs generalizing ys x with
  | nil => rfl
  | cons f fs ih =>
    show ((ys ++ [x]) ::
        (stackStep fs (cachesOf fs (layerFullPass f ys)) (f (ys ++ [x]))).1)
      = (ys ++ [x]) :: cachesOf fs (layerFullPass f (ys ++ [x]))
    rw [layerFullPass_append_one, ih]

theorem stackFullPass_append_one (fs : List (List α → α)) (ys : List α) (x : α) :
    stackFullPass fs (ys ++ [x])
      = stackFullPass fs ys ++ [(stackStep fs (cachesOf fs ys) x).2] := by
  induction fs generalizing ys x with
  | nil => rfl
  | cons f fs ih =>
    show stackFullPass fs (layerFullPass f (ys ++ [x]))
      = stackFullPass fs (layerFullPass f ys)
        ++ [(stackStep fs (cachesOf fs (layerFullPass f ys)) (f (ys ++ [x]))).2]
    rw [layerFullPass_append_one, ih]

theorem runInc_eq_fullPass_from (fs : List (List α → α)) (xs : List α) :
    ∀ ys : List α, stackFullPass fs (ys ++ xs)
      = stackFullPass fs ys ++ (runInc fs (cachesOf fs ys) xs).2 := by
  induction xs with
  | nil =>
    intro ys
    show stackFullPass fs (ys ++ []) = stackFullPass fs ys ++ []
    rw [List.append_nil, List.append_nil]
  | cons x xs ih =>
    intro ys
    have h1 : ys ++ x :: xs = (ys ++ [x]) ++ xs := by simp
    rw [h1, ih (ys ++ [x]), stackFullPass_append_one]
    have h2 : (runInc fs (cachesOf fs ys) (x :: xs)).2
        = (stackStep fs (cachesOf fs ys) x).2
          :: (runInc fs (stackStep fs (cachesOf fs ys) x).1 xs).2 := rfl
    rw [h2, stackStep_fst]
    simp

theorem stackFullPass_nil (fs : List (List α → α)) :
    stackFullPass fs ([] : List α) = [] := by
  induction fs with
  | nil => rfl
  | cons f fs ih =>
    show stackFullPass fs (layerFullPass f []) = []
    have h0 : layerFullPass f ([] : List α) = [] := rfl
    rw [h0, ih]

theorem cachesOf_nil (fs : List (List α → α)) :
    cachesOf fs ([] : List α) = List.replicate fs.length [] := by
  induction fs with
  | nil => rfl
  | cons f fs ih =>
    show ([] : List α) :: cachesOf fs (layerFullPass f []) = _
    have h0 : layerFullPass f ([] : List α) = [] := rfl
    rw [h0, ih, List.length_cons, List.replicate_succ]

/-- C6: for every input sequence, running the decoder layer stack once
non-incrementally over the whole sequence with causal masking yields exactly
the same output representations as running it incrementally one token per
step with per-layer caches initialized empty at step 0; proved for arbitrary
causal layer functions, so the equality is exact (subsuming the claim's
numerical tolerance). -/
theorem incremental_eq_fullPass (α : Type) (fs : List (List α → α))
    (xs : List α) :
    (runInc fs (List.replicate fs.length []) xs).2 = stackFullPass fs xs := by
  have h := runInc_eq_fullPass_from fs xs ([] : List α)
  rw [cachesOf_nil, stackFullPass_nil, List.nil_append, List.nil_append] at h
  exact h.symm
